import Mathlib

/-! Verification of the IPEDS data-cleaning script (scripts/ipeds_data_cleaning.py).

The script merges an IPEDS Data csv with its ValueLabels csv: it selects the
two member files of the zip archive by filename substring, drops placeholder
columns, replaces value codes by their labels, and normalizes column names.

Cells are modelled by `Val` (string, integer code, or the missing marker NaN),
tables by `DataTable` (an ordered list of named columns), and the value-labels
csv by a list of `LabelRow` records.  Python dictionaries are modelled by their
lookup semantics.  `pyReplaceFuel` models Python str.replace (single pass, left
to right, scanning resumes after each replaced occurrence), `lowerStr` models
str.lower on ASCII letters, and `regexSubFuel` models the final re.sub of the
pattern: underscore, then a parenthesized group with no nested parentheses. -/

set_option maxRecDepth 8000

namespace Ipeds

/-- A cell value: a label string, an integer code, or the missing marker. -/
inductive Val where
  | str : String → Val
  | int : Int → Val
  | na : Val
deriving DecidableEq

/-- A named column of the data table. -/
structure Column where
  name : String
  cells : List Val
deriving DecidableEq

/-- The data table: an ordered list of named columns. -/
structure DataTable where
  cols : List Column
deriving DecidableEq

/-- One record of the value-labels table. -/
structure LabelRow where
  VariableName : String
  Value : Val
  ValueLabel : String
deriving DecidableEq

/-- Substring containment, modelling the Python expression pat in s. -/
abbrev strContains (s pat : String) : Prop := pat.data <:+: s.data

/-- Placeholder column test of line 51: the Python test "Unnamed" in col. -/
abbrev hasUnnamed (c : Column) : Prop := strContains c.name "Unnamed"

/-- Lines 51-52 of the script: keep exactly the columns whose name does not
contain the marker "Unnamed". -/
def filterUnnamed (t : DataTable) : DataTable :=
  ⟨t.cols.filter (fun c => ¬ hasUnnamed c)⟩

/-- One left-to-right pass of Python str.replace on char lists, with fuel
(one unit per scanned position; the scanned list shrinks by at least one
character per unit, so fuel equal to the length of the list is enough).
When the pattern matches at the current position the replacement is
emitted and scanning resumes after the matched occurrence. -/
def pyReplaceFuel (pat rep : List Char) : Nat → List Char → List Char
  | _, [] => []
  | 0, l => l
  | fuel + 1, c :: rest =>
    if pat ≠ [] ∧ pat <+: (c :: rest) then
      rep ++ pyReplaceFuel pat rep fuel (List.drop (pat.length - 1) rest)
    else
      c :: pyReplaceFuel pat rep fuel rest

/-- Python str.replace. -/
def pyReplace (pat rep s : String) : String :=
  ⟨pyReplaceFuel pat.data rep.data s.data.length s.data⟩

/-- Python str.lower, modelled on ASCII letters. -/
def lowerStr (s : String) : String := ⟨s.data.map Char.toLower⟩

/-- The apostrophe character. -/
def apos : Char := Char.ofNat 39

/-- The possessive marker (apostrophe followed by s) removed by the first
rewrite of clean_column, line 84 of the script. -/
def posPat : String := ⟨[apos, 's']⟩

/-- Scan for the closing parenthesis of a group that contains no nested
parentheses: models the regex fragment of line 100 made of any characters
other than parentheses followed by a closing parenthesis.  Returns the
remainder of the list after the closing parenthesis, or none when the next
parenthesis character is an opening one (or the list ends). -/
def spanParen : List Char → Option (List Char)
  | [] => none
  | c :: rest =>
    if c = ')' then some rest
    else if c = '(' then none
    else spanParen rest

/-- Line 100 of the script: re.sub removing every match of the pattern
underscore-then-parenthesized-group-with-no-nested-parens, scanning left to
right and resuming after each removed match.  Fuel as in pyReplaceFuel. -/
def regexSubFuel : Nat → List Char → List Char
  | _, [] => []
  | 0, l => l
  | fuel + 1, '_' :: '(' :: rest =>
    match spanParen rest with
    | some rem => regexSubFuel fuel rem
    | none => '_' :: regexSubFuel fuel ('(' :: rest)
  | fuel + 1, c :: rest => c :: regexSubFuel fuel rest

/-- re.sub of the parenthesized-suffix-group pattern on a char list. -/
def regexSub (l : List Char) : List Char := regexSubFuel l.length l

/-- re.sub of the parenthesized-suffix-group pattern on a string. -/
def regexSubStr (s : String) : String := ⟨regexSub s.data⟩

/-- Lines 70-102 of the script: the column-name normalizer clean_column,
the chain of str.replace calls, str.lower, and the final re.sub. -/
def clean_column (col : String) : String :=
  regexSubStr
    (pyReplace "_that_are_" "_"
      (pyReplace "_of_" "_"
        (pyReplace "_or_post_office_box" ""
          (pyReplace "_location" ""
            (pyReplace "_of_institution" ""
              (pyReplace "two_or_more_races" "multirace"
                (pyReplace "_within_" "_"
                  (pyReplace "graduation_rate" "gradrate"
                    (lowerStr
                      (pyReplace "__" "_"
                        (pyReplace "/" "-"
                          (pyReplace " " "_"
                            (pyReplace " - " "_"
                              (pyReplace posPat "" col))))))))))))))

/-- The Column Name Normalizer exactly as the spec states it (section 4.4):
the in-order composition of the eight rewrites: (1) strip the possessive
marker, (2) replace space-dash-space with underscore, (3) replace spaces
with underscores, (4) replace slash with dash, (5) single-pass collapse of
double underscore to underscore, (6) lowercase, (7) the eight domain
rewrites in their stated order, (8) remove parenthesized groups preceded
by an underscore with no nested parentheses. -/
def spec_normalize (col : String) : String :=
  let s1 := pyReplace posPat "" col
  let s2 := pyReplace " - " "_" s1
  let s3 := pyReplace " " "_" s2
  let s4 := pyReplace "/" "-" s3
  let s5 := pyReplace "__" "_" s4
  let s6 := lowerStr s5
  let s7a := pyReplace "graduation_rate" "gradrate" s6
  let s7b := pyReplace "_within_" "_" s7a
  let s7c := pyReplace "two_or_more_races" "multirace" s7b
  let s7d := pyReplace "_of_institution" "" s7c
  let s7e := pyReplace "_location" "" s7d
  let s7f := pyReplace "_or_post_office_box" "" s7e
  let s7g := pyReplace "_of_" "_" s7f
  let s7h := pyReplace "_that_are_" "_" s7g
  regexSubStr s7h

/-- C3: the normalizer of the code equals, on every input string, the
in-order composition of exactly the eight rewrites stated by the spec; it is
a total function of the string alone (row data is never consulted), and it
maps the empty string to the empty string. -/
theorem normalizer_definition :
    (∀ s : String, clean_column s = spec_normalize s) ∧ clean_column "" = "" :=
  ⟨fun _ => rfl, rfl⟩

/-- C4: the normalizer sends the example column name of the spec,
Graduation Rate - Women (2020), to exactly gradrate_women. -/
theorem normalize_example :
    clean_column "Graduation Rate - Women (2020)" = "gradrate_women" := by
  decide

/-- C6: the double-underscore collapse is single-pass, so a run of three
underscores that reaches step 5 is collapsed only once: the normalizer sends
the string with three underscores between a and b to the string with two
underscores, not one. -/
theorem underscore_single_pass :
    clean_column "a___b" = "a__b" ∧ pyReplace "__" "_" "a___b" = "a__b" ∧
      clean_column "a___b" ≠ "a_b" := by
  refine ⟨rfl, rfl, by decide⟩

/-- A string on which no rewrite of the normalization pipeline can still
fire: none of the replaced substrings occurs in it, it is already
lowercase, and the final re.sub removes nothing from it. -/
abbrev NoReducible (s : String) : Prop :=
  ¬ (posPat.data <:+: s.data) ∧
  ¬ (" - ".data <:+: s.data) ∧
  ¬ (" ".data <:+: s.data) ∧
  ¬ ("/".data <:+: s.data) ∧
  ¬ ("__".data <:+: s.data) ∧
  lowerStr s = s ∧
  ¬ ("graduation_rate".data <:+: s.data) ∧
  ¬ ("_within_".data <:+: s.data) ∧
  ¬ ("two_or_more_races".data <:+: s.data) ∧
  ¬ ("_of_institution".data <:+: s.data) ∧
  ¬ ("_location".data <:+: s.data) ∧
  ¬ ("_or_post_office_box".data <:+: s.data) ∧
  ¬ ("_of_".data <:+: s.data) ∧
  ¬ ("_that_are_".data <:+: s.data) ∧
  regexSub s.data = s.data

theorem pyReplaceFuel_self (pat rep : List Char) (fuel : Nat) :
    ∀ l : List Char, ¬ (pat <:+: l) → pyReplaceFuel pat rep fuel l = l := by
  induction fuel with
  | zero =>
    intro l _
    cases l with
    | nil => rfl
    | cons c rest => rfl
  | succ n ih =>
    intro l h
    cases l with
    | nil => rfl
    | cons c rest =>
      have hcond : ¬ (pat ≠ [] ∧ pat <+: (c :: rest)) := by
        rintro ⟨hne, t, ht⟩
        exact h ⟨[], t, by rw [List.nil_append, ht]⟩
      have hrest : ¬ (pat <:+: rest) := by
        rintro ⟨u, w, hw⟩
        refine h ⟨c :: u, w, ?_⟩
        rw [List.cons_append, List.cons_append, hw]
      simp only [pyReplaceFuel, if_neg hcond, ih rest hrest]

theorem pyReplace_self (pat rep s : String) (h : ¬ (pat.data <:+: s.data)) :
    pyReplace pat rep s = s := by
  show String.mk (pyReplaceFuel pat.data rep.data s.data.length s.data) = s
  rw [pyReplaceFuel_self pat.data rep.data s.data.length s.data h]

/-- A string with no reducible pattern is a fixed point of the normalizer. -/
theorem clean_column_fixed (s : String) (h : NoReducible s) : clean_column s = s := by
  obtain ⟨h1, h2, h3, h4, h5, h6, h7, h8, h9, h10, h11, h12, h13, h14, h15⟩ := h
  unfold clean_column
  rw [pyReplace_self _ _ _ h1, pyReplace_self _ _ _ h2, pyReplace_self _ _ _ h3,
    pyReplace_self _ _ _ h4, pyReplace_self _ _ _ h5, h6,
    pyReplace_self _ _ _ h7, pyReplace_self _ _ _ h8, pyReplace_self _ _ _ h9,
    pyReplace_self _ _ _ h10, pyReplace_self _ _ _ h11, pyReplace_self _ _ _ h12,
    pyReplace_self _ _ _ h13, pyReplace_self _ _ _ h14]
  show String.mk (regexSub s.data) = s
  rw [h15]

/-- C5: on every string whose normalized form has no remaining reducible
pattern of the pipeline, the normalizer is idempotent. -/
theorem normalize_idempotent (x : String) (h : NoReducible (clean_column x)) :
    clean_column (clean_column x) = clean_column x :=
  clean_column_fixed (clean_column x) h

/-- Witness for C5 at the concrete column name of the spec example. -/
theorem normalize_idempotent_witness :
    NoReducible (clean_column "Graduation Rate - Women (2020)") ∧
      clean_column (clean_column "Graduation Rate - Women (2020)") =
        clean_column "Graduation Rate - Women (2020)" :=
  ⟨by decide, normalize_idempotent "Graduation Rate - Women (2020)" (by decide)⟩

/-- Python dict assignment viewed through its lookup semantics: the loop of
lines 63-64 assigns labels one row at a time, a later row with the same
Value overwriting the earlier label. -/
def buildDictF (rows : List LabelRow) : Val → Option String :=
  rows.foldl (fun f r => fun v => if v = r.Value then some r.ValueLabel else f v)
    (fun _ => none)

/-- The distinct elements of a list in order of first occurrence, modelling
pandas Series.unique on line 56. -/
def uniqueFirstAux : List String → List String → List String
  | _, [] => []
  | seen, a :: rest =>
    if a ∈ seen then uniqueFirstAux seen rest
    else a :: uniqueFirstAux (a :: seen) rest

/-- Distinct variable names in order of first occurrence. -/
def uniqueFirst (l : List String) : List String := uniqueFirstAux [] l

/-- Lines 55-64 of the script: the label map, one entry per distinct
VariableName in order of first occurrence, each holding the dict built from
the rows of that variable in table order. -/
def buildLabels (rows : List LabelRow) : List (String × (Val → Option String)) :=
  (uniqueFirst (rows.map LabelRow.VariableName)).map
    (fun var => (var, buildDictF (rows.filter (fun r => r.VariableName = var))))

/-- Lookup of the label of a (variable, code) pair in a label map. -/
def lookupLabel (lm : List (String × (Val → Option String))) (var : String)
    (v : Val) : Option String :=
  match List.lookup var lm with
  | some d => d v
  | none => none

/-- Series.map with a dict on one cell, line 67: a mapped code becomes its
label, any other value becomes the missing marker. -/
def substCell (d : Val → Option String) (v : Val) : Val :=
  match d v with
  | some l => Val.str l
  | none => Val.na

/-- One iteration of the loop of lines 66-67: data[key] = data[key].map(...).
Reading data[key] raises KeyError when no column has that name, so the step
is partial; otherwise every column named key has its cells mapped. -/
def applyKey (t : DataTable) (key : String) (d : Val → Option String) :
    Option DataTable :=
  if t.cols.any (fun c => c.name = key) then
    some ⟨t.cols.map (fun c =>
      if c.name = key then Column.mk c.name (c.cells.map (substCell d)) else c)⟩
  else none

/-- The loop of lines 66-67 over all label-map keys, in order. -/
def substTable (lm : List (String × (Val → Option String))) (t : DataTable) :
    Option DataTable :=
  match lm with
  | [] => some t
  | (k, d) :: rest =>
    match applyKey t k d with
    | some t1 => substTable rest t1
    | none => none

/-- The per-column description of a completed substitution pass: a column
whose name is a key of the label map has every cell mapped through that
key's dict, every other column is untouched. -/
def substPure (lm : List (String × (Val → Option String))) (t : DataTable) :
    DataTable :=
  ⟨t.cols.map (fun c =>
    match List.lookup c.name lm with
    | some d => Column.mk c.name (c.cells.map (substCell d))
    | none => c)⟩

/-- Lines 42-45 of the script: the first archive member whose name contains
the given substring; none models the IndexError on an empty selection. -/
def selectMember (names : List String) (pat : String) : Option String :=
  (names.filter (fun n => strContains n pat)).head?

/-- The whole run of clean_data, lines 40-108, over an abstract archive:
names is the member list of the zip, readData and readLabels give the parsed
csv content of a member.  A none result models a raised fault, which aborts
the run before the output file of line 106 is written; a some result is the
table written to the output csv. -/
def clean_data (names : List String) (readData : String → DataTable)
    (readLabels : String → List LabelRow) : Option DataTable :=
  match selectMember names "Data" with
  | none => none
  | some df =>
    match selectMember names "ValueLabels" with
    | none => none
    | some vf =>
      let t := filterUnnamed (readData df)
      match substTable (buildLabels (readLabels vf)) t with
      | none => none
      | some t2 => some ⟨t2.cols.map (fun c => Column.mk (clean_column c.name) c.cells)⟩

theorem lookup_not_mem {β : Type} (a : String) (l : List (String × β))
    (h : a ∉ l.map Prod.fst) : List.lookup a l = none := by
  induction l with
  | nil => rfl
  | cons p rest ih =>
    obtain ⟨k, b⟩ := p
    simp only [List.map_cons, List.mem_cons, not_or] at h
    have hk : (a == k) = false := beq_eq_false_iff_ne.mpr h.1
    simp only [List.lookup, hk]
    exact ih h.2

theorem substPure_nil (t : DataTable) : substPure [] t = t := by
  show DataTable.mk (t.cols.map (fun c => c)) = t
  rw [List.map_id']

theorem substTable_eq_pure (lm : List (String × (Val → Option String))) :
    ∀ t t' : DataTable, (lm.map Prod.fst).Nodup → substTable lm t = some t' →
      t' = substPure lm t := by
  induction lm with
  | nil =>
    intro t t' _ h
    simp only [substTable, Option.some.injEq] at h
    rw [← h, substPure_nil]
  | cons p rest ih =>
    obtain ⟨k, d⟩ := p
    intro t t' h1 h2
    simp only [List.map_cons, List.nodup_cons] at h1
    simp only [substTable] at h2
    cases hA : applyKey t k d with
    | none => rw [hA] at h2; cases h2
    | some t1 =>
      rw [hA] at h2
      have ht' := ih t1 t' h1.2 h2
      have hcols : t1 = ⟨t.cols.map (fun c =>
          if c.name = k then Column.mk c.name (c.cells.map (substCell d)) else c)⟩ := by
        simp only [applyKey] at hA
        split at hA
        · exact ((Option.some.injEq _ _).mp hA).symm
        · cases hA
      rw [ht', hcols]
      simp only [substPure, List.map_map, DataTable.mk.injEq]
      refine congrArg (fun g => List.map g t.cols) (funext fun c => ?_)
      by_cases hck : c.name = k
      · have hnone : List.lookup c.name rest = none := by
          refine lookup_not_mem c.name rest ?_
          rw [hck]; exact h1.1
        have hbeq : (c.name == k) = true := beq_iff_eq.mpr hck
        simp only [Function.comp, if_pos hck, List.lookup, hbeq, hnone]
      · have hbeq : (c.name == k) = false := beq_eq_false_iff_ne.mpr hck
        simp only [Function.comp, if_neg hck, List.lookup, hbeq]

/-- C1: after a successful substitution pass, every column whose name is a
key of the label map has each cell v replaced by the label the dict of that
key assigns to v when v is mapped, and by the missing marker when it is not;
unmapped codes are never passed through unchanged. -/
theorem subst_mapped_column (lm : List (String × (Val → Option String)))
    (t t' : DataTable) (h1 : (lm.map Prod.fst).Nodup)
    (h2 : substTable lm t = some t') (c : Column) (hc : c ∈ t.cols)
    (d : Val → Option String) (hd : List.lookup c.name lm = some d) :
    (∀ v l, d v = some l → substCell d v = Val.str l) ∧
    (∀ v, d v = none → substCell d v = Val.na) ∧
    Column.mk c.name (c.cells.map (substCell d)) ∈ t'.cols := by
  refine ⟨fun v l h => by simp [substCell, h], fun v h => by simp [substCell, h], ?_⟩
  rw [substTable_eq_pure lm t t' h1 h2]
  simp only [substPure]
  exact List.mem_map.mpr ⟨c, hc, by rw [hd]⟩

def dEx1 : Val → Option String := fun v => if v = Val.int 1 then some "Public" else none

def lmEx1 : List (String × (Val → Option String)) := [("SECTOR", dEx1)]

def tEx1 : DataTable := ⟨[⟨"SECTOR", [Val.int 1, Val.int 9]⟩]⟩

def tEx1' : DataTable := ⟨[⟨"SECTOR", [Val.str "Public", Val.na]⟩]⟩

/-- Witness for C1: the SECTOR example of the spec, code 1 becomes the label
Public and the unmapped code 9 becomes the missing marker. -/
theorem subst_mapped_column_witness :
    Column.mk "SECTOR" ([Val.int 1, Val.int 9].map (substCell dEx1)) ∈ tEx1'.cols :=
  (subst_mapped_column lmEx1 tEx1 tEx1' (by decide) rfl
    (Column.mk "SECTOR" [Val.int 1, Val.int 9]) (by decide) dEx1 rfl).2.2

/-- C2: a successful substitution pass preserves the number, order and names
of the columns and the cell count of every column, and every column whose
name is not a key of the label map is kept byte-identical in place. -/
theorem subst_frame (lm : List (String × (Val → Option String)))
    (t t' : DataTable) (h1 : (lm.map Prod.fst).Nodup)
    (h2 : substTable lm t = some t') :
    t'.cols.length = t.cols.length ∧
    ∀ i (hi : i < t.cols.length) (hi' : i < t'.cols.length),
      (t.cols[i].name ∉ lm.map Prod.fst → t'.cols[i] = t.cols[i]) ∧
      t'.cols[i].name = t.cols[i].name ∧
      t'.cols[i].cells.length = t.cols[i].cells.length := by
  rw [substTable_eq_pure lm t t' h1 h2]
  refine ⟨by simp [substPure], ?_⟩
  intro i hi hi'
  simp only [substPure, List.getElem_map]
  refine ⟨?_, ?_, ?_⟩
  · intro hnot
    rw [lookup_not_mem _ _ hnot]
  · cases hL : List.lookup t.cols[i].name lm <;> simp [hL]
  · cases hL : List.lookup t.cols[i].name lm <;> simp [hL]

def lmEx2 : List (String × (Val → Option String)) := [("SECTOR", dEx1)]

def tEx2 : DataTable := ⟨[⟨"SECTOR", [Val.int 1]⟩, ⟨"NAME", [Val.str "X"]⟩]⟩

def tEx2' : DataTable := ⟨[⟨"SECTOR", [Val.str "Public"]⟩, ⟨"NAME", [Val.str "X"]⟩]⟩

/-- Witness for C2: substituting SECTOR leaves the column count and the
unmapped NAME column untouched. -/
theorem subst_frame_witness :
    tEx2'.cols.length = tEx2.cols.length ∧ tEx2'.cols[1] = tEx2.cols[1] := by
  have h := subst_frame lmEx2 tEx2 tEx2' (by decide) rfl
  exact ⟨h.1, (h.2 1 (by decide) (by decide)).1 (by decide)⟩

theorem mem_uniqueFirstAux (a : String) :
    ∀ (l seen : List String), a ∈ uniqueFirstAux seen l ↔ a ∈ l ∧ a ∉ seen := by
  intro l
  induction l with
  | nil => intro seen; simp [uniqueFirstAux]
  | cons b rest ih =>
    intro seen
    by_cases hb : b ∈ seen
    · rw [uniqueFirstAux, if_pos hb, ih seen]
      constructor
      · rintro ⟨ha, hs⟩
        exact ⟨List.mem_cons_of_mem b ha, hs⟩
      · rintro ⟨ha, hs⟩
        rcases List.mem_cons.mp ha with rfl | ha
        · exact absurd hb hs
        · exact ⟨ha, hs⟩
    · rw [uniqueFirstAux, if_neg hb]
      constructor
      · intro hmem
        rcases List.mem_cons.mp hmem with rfl | hmem
        · exact ⟨List.mem_cons_self a rest, hb⟩
        · have := (ih (b :: seen)).mp hmem
          refine ⟨List.mem_cons_of_mem b this.1, fun hs => this.2 ( List.mem_cons_of_mem b hs)⟩
      · rintro ⟨ha, hs⟩
        rcases List.mem_cons.mp ha with rfl | ha
        · exact List.mem_cons_self a _
        · by_cases hab : a = b
          · rw [hab]; exact List.mem_cons_self b _
          · refine List.mem_cons_of_mem b ((ih (b :: seen)).mpr ⟨ha, ?_⟩)
            intro hmem
            rcases List.mem_cons.mp hmem with h | h
            · exact hab h
            · exact hs h

theorem mem_uniqueFirst (a : String) (l : List String) :
    a ∈ uniqueFirst l ↔ a ∈ l := by
  rw [uniqueFirst, mem_uniqueFirstAux]
  simp

theorem lookup_keyed_map {β : Type} (f : String → β) (ks : List String) (a : String) :
    List.lookup a (ks.map (fun k => (k, f k))) =
      if a ∈ ks then some (f a) else none := by
  induction ks with
  | nil => simp
  | cons k ks ih =>
    by_cases hak : a = k
    · subst hak
      have : (a == a) = true := beq_iff_eq.mpr rfl
      simp [List.lookup, this]
    · have hbeq : (a == k) = false := beq_eq_false_iff_ne.mpr hak
      simp only [List.map_cons, List.lookup, hbeq, ih, List.mem_cons]
      by_cases ha : a ∈ ks <;> simp [ha, hak]

theorem buildDictF_eq (rows : List LabelRow) (v : Val) :
    buildDictF rows v =
      ((rows.filter (fun r => r.Value = v)).getLast?).map LabelRow.ValueLabel := by
  induction rows using List.reverseRecOn with
  | nil => rfl
  | append_singleton rs r ih =>
    rw [buildDictF, List.foldl_append] at *
    simp only [List.foldl_cons, List.foldl_nil]
    by_cases hv : v = r.Value
    · have hd : (decide (r.Value = v)) = true := decide_eq_true_eq.mpr hv.symm
      simp [hv, List.filter_append, List.filter_cons, hd]
    · have hd : (decide (r.Value = v)) = false := decide_eq_false (fun h => hv h.symm)
      simp [hv, List.filter_append, List.filter_cons, hd, ih]

def dupRows : List LabelRow :=
  [⟨"VAR", Val.int 1, "A"⟩, ⟨"VAR", Val.int 1, "B"⟩]

/-- Counterexample to C8 as stated: on a label table with two records for the
pair (VAR, 1), first labelled A and then B, the built label map holds B, the
label of the last occurrence, not the label A of the first occurrence. -/
theorem labelmap_first_wins_counterexample :
    lookupLabel (buildLabels dupRows) "VAR" (Val.int 1) = some "B" ∧
    (dupRows.head?).map LabelRow.ValueLabel = some "A" ∧
    ¬ lookupLabel (buildLabels dupRows) "VAR" (Val.int 1) = some "A" := by
  refine ⟨rfl, rfl, by decide⟩

/-- C8 as amended: for every label table, the label-map entry of a
(variable, value) pair is the ValueLabel of the last record of the table
with that VariableName and Value (last occurrence wins), and none when no
such record exists; the construction is a function of the table, hence
deterministic. -/
theorem labelmap_last_occurrence (rows : List LabelRow) (var : String) (v : Val) :
    lookupLabel (buildLabels rows) var v =
      ((rows.filter (fun r => r.VariableName = var ∧ r.Value = v)).getLast?).map
        LabelRow.ValueLabel := by
  rw [lookupLabel, buildLabels,
    lookup_keyed_map (fun k => buildDictF (rows.filter (fun r => r.VariableName = k)))]
  by_cases hv : var ∈ uniqueFirst (rows.map LabelRow.VariableName)
  · rw [if_pos hv]
    show buildDictF (rows.filter (fun r => r.VariableName = var)) v = _
    rw [buildDictF_eq, List.filter_filter]
    have hpred : (fun r => decide (r.Value = v) && decide (r.VariableName = var)) =
        (fun r : LabelRow => decide (r.VariableName = var ∧ r.Value = v)) := by
      funext r
      by_cases h1 : r.VariableName = var <;> by_cases h2 : r.Value = v <;> simp [h1, h2]
    rw [hpred]
  · rw [if_neg hv]
    rw [mem_uniqueFirst] at hv
    have hnil : rows.filter (fun r => r.VariableName = var ∧ r.Value = v) = [] := by
      refine List.filter_eq_nil_iff.mpr ?_
      intro r hr hcontra
      have hand := of_decide_eq_true hcontra
      exact hv (hand.1 ▸ List.mem_map_of_mem LabelRow.VariableName hr)
    rw [hnil]
    rfl

/-- Counterexample to C7 as stated: the filter of lines 51-52 tests
substring containment, not a name prefix.  The column named AUnnamed does
not start with Unnamed, yet it is removed. -/
theorem column_filter_counterexample :
    (filterUnnamed ⟨[⟨"AUnnamed", []⟩]⟩).cols = [] ∧
    ¬ ("Unnamed".data <+: "AUnnamed".data) := by
  refine ⟨rfl, by decide⟩

theorem countP_split {α : Type} (p : α → Bool) (l : List α) :
    l.countP p + l.countP (fun a => !(p a)) = l.length := by
  induction l with
  | nil => rfl
  | cons a rest ih =>
    simp only [List.countP_cons, List.length_cons]
    by_cases h : p a <;> simp [h] <;> omega

/-- C7 as amended: the filter removes exactly the columns whose name
contains the marker Unnamed as a substring; the kept columns are a sublist
of the originals (order preserved) and are byte-identical, the output
column count is the original count minus the number of such placeholder
columns, and when no such column exists the filter is a no-op. -/
theorem column_filter_exact (t : DataTable) :
    (filterUnnamed t).cols.length =
        t.cols.length - t.cols.countP (fun c => decide (hasUnnamed c)) ∧
    List.Sublist (filterUnnamed t).cols t.cols ∧
    (∀ c ∈ (filterUnnamed t).cols, c ∈ t.cols ∧ ¬ hasUnnamed c) ∧
    (∀ c ∈ t.cols, ¬ hasUnnamed c → c ∈ (filterUnnamed t).cols) ∧
    ((∀ c ∈ t.cols, ¬ hasUnnamed c) → filterUnnamed t = t) := by
  refine ⟨?_, List.filter_sublist t.cols, ?_, ?_, ?_⟩
  · show (t.cols.filter (fun c => decide (¬ hasUnnamed c))).length = _
    have hnot : (fun c : Column => decide (¬ hasUnnamed c)) =
        (fun c : Column => !(decide (hasUnnamed c))) := by
      funext c
      exact decide_not
    rw [hnot, ← List.countP_eq_length_filter]
    have := countP_split (fun c : Column => decide (hasUnnamed c)) t.cols
    omega
  · intro c hc
    have := List.mem_filter.mp hc
    exact ⟨this.1, of_decide_eq_true this.2⟩
  · intro c hc hn
    exact List.mem_filter.mpr ⟨hc, decide_eq_true hn⟩
  · intro hall
    show DataTable.mk (t.cols.filter (fun c => decide (¬ hasUnnamed c))) = t
    rw [List.filter_eq_self.mpr (fun c hc => decide_eq_true (hall c hc))]

/-- Witness for C7 at a table with one data column and one placeholder. -/
theorem column_filter_exact_witness :
    (filterUnnamed ⟨[⟨"UnitID", [Val.int 100654]⟩]⟩) = ⟨[⟨"UnitID", [Val.int 100654]⟩]⟩ :=
  (column_filter_exact ⟨[⟨"UnitID", [Val.int 100654]⟩]⟩).2.2.2.2 (by decide)

theorem head_filter_spec {α : Type} (p : α → Bool) :
    ∀ (l : List α) (f : α), (l.filter p).head? = some f →
      p f = true ∧ ∃ pre post, l = pre ++ f :: post ∧ ∀ g ∈ pre, p g = false := by
  intro l
  induction l with
  | nil => intro f h; cases h
  | cons a rest ih =>
    intro f h
    by_cases hp : p a
    · rw [List.filter_cons_of_pos hp] at h
      have : a = f := by
        simpa using h
      subst this
      exact ⟨hp, [], rest, rfl, by simp⟩
    · have hpf : p a = false := by simp [hp]
      rw [List.filter_cons_of_neg (by simp [hpf])] at h
      obtain ⟨h1, pre, post, heq, h2⟩ := ih f h
      refine ⟨h1, a :: pre, post, by rw [List.cons_append, heq], ?_⟩
      intro g hg
      rcases List.mem_cons.mp hg with rfl | hg
      · exact hpf
      · exact h2 g hg

/-- C9: member selection is by filename substring, first match wins; when
either substring matches no member the run aborts (the IndexError of lines
42-45) and no output table is produced. -/
theorem archive_selection (names : List String) (readData : String → DataTable)
    (readLabels : String → List LabelRow) :
    ((∀ g ∈ names, ¬ strContains g "Data") →
        clean_data names readData readLabels = none) ∧
    ((∀ g ∈ names, ¬ strContains g "ValueLabels") →
        clean_data names readData readLabels = none) ∧
    (∀ f, selectMember names "Data" = some f → strContains f "Data" ∧
        ∃ pre post, names = pre ++ f :: post ∧ ∀ g ∈ pre, ¬ strContains g "Data") ∧
    (∀ f, selectMember names "ValueLabels" = some f → strContains f "ValueLabels" ∧
        ∃ pre post, names = pre ++ f :: post ∧ ∀ g ∈ pre, ¬ strContains g "ValueLabels") := by
  have hsel : ∀ pat : String, (∀ g ∈ names, ¬ strContains g pat) →
      selectMember names pat = none := by
    intro pat h
    show (names.filter (fun n => decide (strContains n pat))).head? = none
    rw [List.filter_eq_nil_iff.mpr (fun g hg => by simpa using h g hg)]
    rfl
  have hchar : ∀ (pat : String) (f : String), selectMember names pat = some f →
      strContains f pat ∧
        ∃ pre post, names = pre ++ f :: post ∧ ∀ g ∈ pre, ¬ strContains g pat := by
    intro pat f hf
    obtain ⟨h1, pre, post, heq, h2⟩ :=
      head_filter_spec (fun n => decide (strContains n pat)) names f hf
    refine ⟨of_decide_eq_true h1, pre, post, heq, ?_⟩
    intro g hg
    exact of_decide_eq_false (h2 g hg)
  refine ⟨?_, ?_, hchar "Data", hchar "ValueLabels"⟩
  · intro h
    simp [clean_data, hsel "Data" h]
  · intro h
    cases hD : selectMember names "Data" with
    | none => simp [clean_data, hD]
    | some df => simp [clean_data, hD, hsel "ValueLabels" h]

def readDataEx : String → DataTable := fun _ => ⟨[⟨"A", [Val.int 1]⟩]⟩

def readLabelsEx : String → List LabelRow := fun _ => [⟨"B", Val.int 1, "x"⟩]

/-- Witness for C9: the spec example archive whose only member data2020.csv
does not contain the substring Data, so the run aborts with no output; and a
first-match selection on a two-member list. -/
theorem archive_selection_witness :
    clean_data ["data2020.csv"] readDataEx readLabelsEx = none ∧
    strContains "Stats_Data_2020.csv" "Data" :=
  ⟨(archive_selection ["data2020.csv"] readDataEx readLabelsEx).1 (by decide),
    ((archive_selection ["Stats_Data_2020.csv"] readDataEx readLabelsEx).2.2.1
      "Stats_Data_2020.csv" (by decide)).1⟩

theorem applyKey_names (t : DataTable) (key : String) (d : Val → Option String)
    (t1 : DataTable) (h : applyKey t key d = some t1) :
    t1.cols.map Column.name = t.cols.map Column.name := by
  simp only [applyKey] at h
  split at h
  · have := ((Option.some.injEq _ _).mp h).symm
    rw [this]
    simp only [List.map_map]
    refine congrArg (fun g => List.map g t.cols) (funext fun c => ?_)
    by_cases hc : c.name = key <;> simp [Function.comp, hc]
  · cases h

theorem substTable_none (lm : List (String × (Val → Option String))) :
    ∀ (t : DataTable) (key : String), key ∈ lm.map Prod.fst →
      key ∉ t.cols.map Column.name → substTable lm t = none := by
  induction lm with
  | nil => intro t key hk _; cases hk
  | cons p rest ih =>
    obtain ⟨k, d⟩ := p
    intro t key hk hm
    simp only [List.map_cons, List.mem_cons] at hk
    simp only [substTable]
    cases hA : applyKey t k d with
    | none => rfl
    | some t1 =>
      rcases hk with rfl | hk
      · exfalso
        simp only [applyKey] at hA
        split at hA
        · rename_i hcond
          obtain ⟨c, hc, hcn⟩ := List.any_eq_true.mp hcond
          exact hm (of_decide_eq_true hcn ▸ List.mem_map_of_mem Column.name hc)
        · cases hA
      · refine ih t1 key hk ?_
        rw [applyKey_names t k d t1 hA]
        exact hm

/-- C10: when the label table holds a VariableName that is not a column of
the filtered data table, the substitution loop raises a KeyError, so the run
aborts and no output table is produced: extra label variables are not
silently skipped. -/
theorem subst_missing_key_aborts (names : List String)
    (readData : String → DataTable) (readLabels : String → List LabelRow)
    (df vf : String) (r : LabelRow)
    (hdf : selectMember names "Data" = some df)
    (hvf : selectMember names "ValueLabels" = some vf)
    (hr : r ∈ readLabels vf)
    (hmiss : r.VariableName ∉ (filterUnnamed (readData df)).cols.map Column.name) :
    clean_data names readData readLabels = none := by
  have hkey : r.VariableName ∈ (buildLabels (readLabels vf)).map Prod.fst := by
    show r.VariableName ∈ (List.map Prod.fst (List.map _ (uniqueFirst _)))
    rw [List.map_map]
    have : (Prod.fst ∘ fun var : String =>
        (var, buildDictF ((readLabels vf).filter (fun q => q.VariableName = var)))) =
        (fun var : String => var) := rfl
    rw [this, List.map_id']
    exact (mem_uniqueFirst _ _).mpr (List.mem_map_of_mem LabelRow.VariableName hr)
  simp [clean_data, hdf, hvf,
    substTable_none (buildLabels (readLabels vf)) (filterUnnamed (readData df))
      r.VariableName hkey hmiss]

/-- Witness for C10: the label table names variable B, the data table only
has column A, and the run produces no output. -/
theorem subst_missing_key_aborts_witness :
    clean_data ["MyData.csv", "MyValueLabels.csv"] readDataEx readLabelsEx = none :=
  subst_missing_key_aborts ["MyData.csv", "MyValueLabels.csv"] readDataEx readLabelsEx
    "MyData.csv" "MyValueLabels.csv" ⟨"B", Val.int 1, "x"⟩ rfl rfl (by decide) (by decide)

end Ipeds
